import Mathlib

/-!
Verification of the ranking-line tokenizer/classifier of the
fantasy-rankings-visualizer repository (src/services/geminiService.ts).

Strings are embedded as lists of characters (`Str`); every JavaScript string
operation used by the source (toUpperCase, trim, split, startsWith, substring,
replace, parseInt, regex character-class tests) is translated to an executable
Lean function on `Str`.  Two variants of `parseRankingsFromText` appear in the
source file: the basic rightward-scan parser and the team-aware last-two-token
parser; both are embedded below.
-/

namespace FantasyParse

/-- A JavaScript string, embedded as its list of characters. -/
abbrev Str := List Char

/-- ASCII digit test, the `\d` character class of the source's regexes. -/
def isDigitC (c : Char) : Bool := '0' ≤ c && c ≤ '9'

/-- ASCII uppercase-letter test, the `[A-Z]` character class of `isTeam`. -/
def isUpperAlphaC (c : Char) : Bool := 'A' ≤ c && c ≤ 'Z'

/-- ASCII lowercase-letter test, used by `toUpperC`. -/
def isLowerC (c : Char) : Bool := 'a' ≤ c && c ≤ 'z'

/-- JavaScript whitespace (the `\s` class / `trim`), restricted to the ASCII
whitespace characters that can occur in pasted ranking text. -/
def isWsC (c : Char) : Bool :=
  c = ' ' || c = '\t' || c = '\n' || c = '\r' || c = Char.ofNat 11 || c = Char.ofNat 12

/-- ASCII uppercasing of one character (`String.prototype.toUpperCase`). -/
def toUpperC (c : Char) : Char :=
  if isLowerC c then Char.ofNat (c.toNat - 32) else c

/-- JavaScript `s.trim()`: drop whitespace from both ends. -/
def trimJs (s : Str) : Str :=
  ((s.dropWhile isWsC).reverse.dropWhile isWsC).reverse

/-- Worker for `words`: `acc` holds the characters of the current token in
reverse; a whitespace character or the end of the string emits the token. -/
def wordsGo (s : Str) (acc : Str) : List Str :=
  match s with
  | [] => if acc = [] then [] else [acc.reverse]
  | c :: cs =>
    if isWsC c then
      if acc = [] then wordsGo cs [] else acc.reverse :: wordsGo cs []
    else wordsGo cs (c :: acc)

/-- Maximal runs of non-whitespace characters: the tokens produced by
`split(/\s+/)` on a trimmed string. -/
def words (s : Str) : List Str := wordsGo s []

/-- JavaScript `s.trim().split(/\s+/)`.  On a whitespace-only string, JS
`split` returns the one-element array `[""]`; otherwise it returns the
whitespace-separated tokens. -/
def jsSplitWsTrim (s : Str) : List Str :=
  if (words (trimJs s)).isEmpty then [[]] else words (trimJs s)

/-- JavaScript `text.split('\n')`. -/
def splitOnNl (s : Str) : List Str :=
  match s with
  | [] => [[]]
  | c :: cs =>
    if c = '\n' then [] :: splitOnNl cs
    else
      match splitOnNl cs with
      | [] => [[c]]
      | w :: ws => (c :: w) :: ws

/-- Numeric value of a digit string (most significant digit first). -/
def digitsVal (ds : Str) : Nat :=
  ds.foldl (fun a c => a * 10 + (c.toNat - 48)) 0

/-- Longest digit prefix of a string, as a number; `none` when the string does
not start with a digit. -/
def parseLeadingDigits (s : Str) : Option Nat :=
  if s.takeWhile isDigitC = [] then none else some (digitsVal (s.takeWhile isDigitC))

/-- JavaScript `parseInt(s, 10)`: skip leading whitespace, accept an optional
sign, then read the longest digit prefix; `NaN` (here `none`) when no digit
follows. -/
def parseIntJs (s : Str) : Option Int :=
  match s.dropWhile isWsC with
  | [] => none
  | c :: rest =>
    if c = '-' then (parseLeadingDigits rest).map (fun n => -(n : Int))
    else if c = '+' then (parseLeadingDigits rest).map (fun n => (n : Int))
    else (parseLeadingDigits (c :: rest)).map (fun n => (n : Int))

/-- Result of `extractPositionAndRank`: a base position code and an optional
positional rank. -/
structure PosInfo where
  base : Str
  rank : Option Int
deriving DecidableEq, Repr

/-- The `BASE_POSITIONS` constant of the source. -/
def BASE_POSITIONS : List Str :=
  ["QB".data, "RB".data, "WR".data, "TE".data, "K".data, "DST".data, "DEF".data]

/-- DEF-to-DST normalization applied to a matched base code. -/
def normCode (code : Str) : Str :=
  if code = "DEF".data then "DST".data else code

/-- The `for (const pos of BASE_POSITIONS)` loop of `extractPositionAndRank`:
try each base code in order; a code whose prefix matches but whose remainder is
not all digits does not stop the search. -/
def extractGo (l : List Str) (up : Str) : Option PosInfo :=
  match l with
  | [] => none
  | code :: rest =>
    if code.isPrefixOf up then
      if (up.drop code.length).all isDigitC then
        some ⟨normCode code, parseIntJs (up.drop code.length)⟩
      else extractGo rest up
    else extractGo rest up

/-- The source's `extractPositionAndRank`: uppercase the token, find the first
base code that is a prefix with an all-digit remainder, normalize DEF to DST,
and parse the remainder as the positional rank (`NaN` on empty → no rank). -/
def extractPositionAndRank (part : Str) : Option PosInfo :=
  if part = [] then none
  else extractGo BASE_POSITIONS (part.map toUpperC)

/-- The source's `isTeam`: the token matches `/^[A-Z]{2,3}$/`. -/
def isTeam (part : Str) : Bool :=
  if part = [] then false
  else (part.length = 2 || part.length = 3) && part.all isUpperAlphaC

/-- The literal separator `" vs "`. -/
def sepVs : Str := " vs ".data

/-- The literal separator `" @ "`. -/
def sepAt : Str := " @ ".data

/-- JavaScript `line.split(/ vs | @ /)[0]`: the prefix of the line before the
first occurrence of either separator. -/
def splitMatchup (s : Str) : Str :=
  match s with
  | [] => []
  | c :: cs =>
    if sepVs.isPrefixOf (c :: cs) || sepAt.isPrefixOf (c :: cs) then []
    else c :: splitMatchup cs

/-- Index of the first occurrence of `" vs "` or `" @ "` in a string, used to
state what `splitMatchup` computes. -/
def firstSepIdx (s : Str) : Option Nat :=
  match s with
  | [] => none
  | c :: cs =>
    if sepVs.isPrefixOf (c :: cs) || sepAt.isPrefixOf (c :: cs) then some 0
    else (firstSepIdx cs).map (· + 1)

/-- Whether one of the two matchup separators occurs at index `j` of `s`. -/
def sepOccursAt (s : Str) (j : Nat) : Bool :=
  sepVs.isPrefixOf (s.drop j) || sepAt.isPrefixOf (s.drop j)

/-- JavaScript `parts[0].replace(/[.\)]$/, '')`: strip one trailing `.` or `)`. -/
def stripRankPunct (s : Str) : Str :=
  match s.getLast? with
  | some c => if c = '.' || c = ')' then s.dropLast else s
  | none => s

/-- JavaScript `line.replace(/\t/g, ' ')` (team-aware variant only). -/
def replaceTabs (s : Str) : Str :=
  s.map (fun c => if c = '\t' then ' ' else c)

/-- JavaScript `arr.join(' ')`. -/
def joinSpace (l : List Str) : Str :=
  match l with
  | [] => []
  | [w] => w
  | w :: ws => w ++ ' ' :: joinSpace ws

/-- The parsed player record (the `Player` interface of types.ts, with the
fields produced by the parser). -/
structure Player where
  rank : Int
  name : Str
  position : Str
  positionalRank : Option Int
  team : Option Str
deriving DecidableEq, Repr

/-- Token list of one line in the team-aware parser: replace tabs, strip the
matchup suffix, trim, split on whitespace. -/
def partsOf (line : Str) : List Str :=
  jsSplitWsTrim (splitMatchup (replaceTabs line))

/-- Position/team/name-cut resolution of the team-aware parser, phrased over
the reversed token list: the head of `pnp.reverse` is `p1 = pnp[n-1]` (the last
token) and the next element is `p2 = pnp[n-2]` (the second-to-last token).
Returns the position info, the optional team, and `nameEndIndex`. -/
def resolveTA (pnp : List Str) : Option (PosInfo × Option Str × Nat) :=
  match pnp.reverse with
  | [] => none
  | [p1] =>
    match extractPositionAndRank p1 with
    | some pi => some (pi, none, pnp.length - 1)
    | none => none
  | p1 :: p2 :: _ =>
    match extractPositionAndRank p1 with
    | some pi =>
      if isTeam p2 then some (pi, some (p2.map toUpperC), pnp.length - 2)
      else some (pi, none, pnp.length - 1)
    | none =>
      if isTeam p1 then
        match extractPositionAndRank p2 with
        | some pi => some (pi, some (p1.map toUpperC), pnp.length - 2)
        | none => none
      else none

/-- One line of the team-aware `parseRankingsFromText`: `none` means the line
is skipped (the `continue` branches and the failing final guard). -/
def parseLineTA (line : Str) : Option Player :=
  match partsOf line with
  | p0 :: q :: rest =>
    match parseIntJs (stripRankPunct p0) with
    | none => none
    | some rank =>
      if (q :: rest).length = 0 then none
      else
        match resolveTA (q :: rest) with
        | none => none
        | some (pi, team, nameEnd) =>
          if 0 < nameEnd then
            some ⟨rank, joinSpace ((q :: rest).take nameEnd), pi.base, pi.rank, team⟩
          else none
  | _ => none

/-- The right-to-left scan of the basic parser: the rightmost token for which
`extractPositionAndRank` matches, with its index. -/
def findPosRight (l : List Str) : Option (Nat × PosInfo) :=
  match l with
  | [] => none
  | t :: rest =>
    match findPosRight rest with
    | some (i, pi) => some (i + 1, pi)
    | none =>
      match extractPositionAndRank t with
      | some pi => some (0, pi)
      | none => none

/-- One line of the basic `parseRankingsFromText` (no tab replacement, no team
lookup; the emitted record has no team field). -/
def parseLineBasic (line : Str) : Option Player :=
  match jsSplitWsTrim (splitMatchup line) with
  | p0 :: q :: rest =>
    match parseIntJs (stripRankPunct p0) with
    | none => none
    | some rank =>
      match findPosRight (q :: rest) with
      | none => none
      | some (idx, pi) =>
        if joinSpace ((q :: rest).take idx) = [] then none
        else some ⟨rank, joinSpace ((q :: rest).take idx), pi.base, pi.rank, none⟩
  | _ => none

/-- `text.split('\n').filter(line => line.trim() !== '')`. -/
def linesOf (text : Str) : List Str :=
  (splitOnNl text).filter (fun l => trimJs l ≠ [])

/-- The team-aware `parseRankingsFromText` on its success path: records of the
non-skipped lines, in line order. -/
def parseRankingsFromTextTA (text : Str) : List Player :=
  (linesOf text).filterMap parseLineTA

/-- The basic `parseRankingsFromText` on its success path. -/
def parseRankingsFromTextBasic (text : Str) : List Player :=
  (linesOf text).filterMap parseLineBasic

/-- Claim C1: the team-aware parser maps the line "5 Patrick Mahomes KC QB1"
and the line "5 Patrick Mahomes QB1 KC" to the same record
{rank 5, name "Patrick Mahomes", team "KC", position "QB", positionalRank 1}:
the team-then-position and position-then-team layouts yield identical output,
both per line and for the whole text. -/
theorem spec_C1 :
    parseLineTA "5 Patrick Mahomes KC QB1".data
      = some ⟨5, "Patrick Mahomes".data, "QB".data, some 1, some "KC".data⟩
    ∧ parseLineTA "5 Patrick Mahomes QB1 KC".data
      = some ⟨5, "Patrick Mahomes".data, "QB".data, some 1, some "KC".data⟩
    ∧ parseRankingsFromTextTA "5 Patrick Mahomes KC QB1".data
      = parseRankingsFromTextTA "5 Patrick Mahomes QB1 KC".data :=
  ⟨rfl, rfl, rfl⟩

/-- Claim C9: the basic rightward-scan strategy and the team-aware
last-two-token strategy are not interchangeable: on the input "4 CJ WR2" the
basic parser emits a record while the team-aware parser emits none, so the two
variants differ in which records are emitted (not merely in the team field). -/
theorem spec_C9 :
    parseLineBasic "4 CJ WR2".data = some ⟨4, "CJ".data, "WR".data, some 2, none⟩
    ∧ parseLineTA "4 CJ WR2".data = none
    ∧ parseRankingsFromTextBasic "4 CJ WR2".data ≠ parseRankingsFromTextTA "4 CJ WR2".data := by
  refine ⟨rfl, rfl, ?_⟩
  decide

/-- Claim C7: the output of the team-aware parser preserves the relative order
of the source lines — the records of the first `n` lines are a prefix of the
whole output — and the output is not sorted by rank value, as the concrete
two-line input with ranks 2 then 1 shows. -/
theorem spec_C7 :
    (∀ (text : Str) (n : Nat),
       ((linesOf text).take n).filterMap parseLineTA <+: parseRankingsFromTextTA text)
    ∧ (parseRankingsFromTextTA "2 Aa Bb QB\n1 Cc Dd QB".data).map Player.rank = [2, 1] := by
  constructor
  · intro text n
    refine ⟨((linesOf text).drop n).filterMap parseLineTA, ?_⟩
    rw [← List.filterMap_append, List.take_append_drop]
    rfl
  · decide

theorem getLast?_of_rev {α : Type} {l r : List α} {a : α} (h : l.reverse = a :: r) :
    l.getLast? = some a := by
  have hl : l = r.reverse ++ [a] := by
    have h2 := congrArg List.reverse h
    simpa using h2
  rw [hl, List.getLast?_append_cons]
  rfl

theorem dropLast_getLast?_of_rev {α : Type} {l r : List α} {a b : α}
    (h : l.reverse = a :: b :: r) : l.dropLast.getLast? = some b := by
  have hl : l = r.reverse ++ b :: [a] := by
    have h2 := congrArg List.reverse h
    simpa using h2
  have hl2 : l = (r.reverse ++ [b]) ++ [a] := by rw [hl, List.append_assoc]; rfl
  rw [hl2, List.dropLast_concat, List.getLast?_append_cons]
  rfl

/-- Claim C3: in the team-aware parser, a line whose last token is a team token
that is not a position, and whose second-to-last token (when it exists) does
not match a position, produces no record: a trailing team without an adjacent
position causes the line to be skipped. -/
theorem spec_C3 (line : Str) (p1 : Str)
    (h1 : ((partsOf line).drop 1).getLast? = some p1)
    (hteam : isTeam p1 = true)
    (hpos : extractPositionAndRank p1 = none)
    (h2 : ∀ p2, ((partsOf line).drop 1).dropLast.getLast? = some p2 →
          extractPositionAndRank p2 = none) :
    parseLineTA line = none := by
  rcases hps : partsOf line with _ | ⟨p0, ps⟩
  · simp [parseLineTA, hps]
  · rcases ps with _ | ⟨q, rest⟩
    · simp [parseLineTA, hps]
    · rw [hps] at h1 h2
      simp only [List.drop_succ_cons, List.drop_zero] at h1 h2
      rcases hr : parseIntJs (stripRankPunct p0) with _ | rank
      · simp [parseLineTA, hps, hr]
      · rcases hrev : (q :: rest).reverse with _ | ⟨a, _ | ⟨b, r⟩⟩
        · exact absurd hrev (by simp)
        · have ha : a = p1 := by
            have := getLast?_of_rev hrev
            rw [h1] at this
            exact (Option.some.inj this).symm
          subst ha
          simp [parseLineTA, hps, hr, resolveTA, hrev, hpos]
        · have ha : a = p1 := by
            have := getLast?_of_rev hrev
            rw [h1] at this
            exact (Option.some.inj this).symm
          subst ha
          have hb := h2 b (dropLast_getLast?_of_rev hrev)
          simp [parseLineTA, hps, hr, resolveTA, hrev, hpos, hteam, hb]

/-- Witness for C3 at the spec's example "7 Some Guy KC": the hypotheses hold
concretely and the line yields no record. -/
theorem spec_C3_w :
    ((partsOf "7 Some Guy KC".data).drop 1).getLast? = some "KC".data
    ∧ isTeam "KC".data = true
    ∧ extractPositionAndRank "KC".data = none
    ∧ parseLineTA "7 Some Guy KC".data = none :=
  ⟨by decide, by decide, by decide,
    spec_C3 _ "KC".data (by decide) (by decide) (by decide)
      (fun p2 hp2 => by
        have hc : ((partsOf "7 Some Guy KC".data).drop 1).dropLast.getLast?
            = some "Guy".data := by decide
        rw [hc] at hp2
        rw [← Option.some.inj hp2]
        decide)⟩

/-- Claim C5: in the team-aware parser, a line whose first token (after
stripping one trailing "." or ")") does not parse as an integer contributes no
record: the line is skipped. -/
theorem spec_C5 (line : Str)
    (h : parseIntJs (stripRankPunct ((partsOf line).headD [])) = none) :
    parseLineTA line = none
    ∧ ∀ (text : Str) (pre post : List Str), linesOf text = pre ++ line :: post →
        parseRankingsFromTextTA text
          = pre.filterMap parseLineTA ++ post.filterMap parseLineTA := by
  have h1 : parseLineTA line = none := by
    rcases hps : partsOf line with _ | ⟨p0, ps⟩
    · simp [parseLineTA, hps]
    · rcases ps with _ | ⟨q, rest⟩
      · simp [parseLineTA, hps]
      · rw [hps] at h
        simp only [List.headD_cons] at h
        simp [parseLineTA, hps, h]
  refine ⟨h1, fun text pre post hsplit => ?_⟩
  rw [parseRankingsFromTextTA, hsplit, List.filterMap_append, List.filterMap_cons, h1]

/-- Witness for C5 at the line "x. Tom Brady QB", whose leading token is not
numeric: the line yields no record and a text consisting of that line alone
parses to the empty sequence. -/
theorem spec_C5_w :
    parseIntJs (stripRankPunct ((partsOf "x. Tom Brady QB".data).headD [])) = none
    ∧ parseLineTA "x. Tom Brady QB".data = none
    ∧ parseRankingsFromTextTA "x. Tom Brady QB".data = [] :=
  ⟨by decide, (spec_C5 "x. Tom Brady QB".data (by decide)).1, by
    have h2 := (spec_C5 "x. Tom Brady QB".data (by decide)).2
      "x. Tom Brady QB".data [] [] (by decide)
    simpa using h2⟩

/-- Claim C10: in the team-aware parser, a line whose tokens after the rank
token are exactly a 2–3-uppercase-letter token followed by a position token
produces no record: the uppercase token is consumed as the team, the name is
empty, and the name-empty guard drops the line. -/
theorem spec_C10 (line : Str) (t p : Str) (pi : PosInfo)
    (hp : (partsOf line).drop 1 = [t, p])
    (ht : isTeam t = true)
    (hpos : extractPositionAndRank p = some pi) :
    parseLineTA line = none := by
  rcases hps : partsOf line with _ | ⟨p0, ps⟩
  · rw [hps] at hp
    simp at hp
  · rw [hps] at hp
    simp only [List.drop_succ_cons, List.drop_zero] at hp
    subst hp
    rcases hr : parseIntJs (stripRankPunct p0) with _ | rank
    · simp [parseLineTA, hps, hr]
    · simp [parseLineTA, hps, hr, resolveTA, hpos, ht]

/-- Witness for C10 at the line "4 CJ WR2": "CJ" is team-like, "WR2" is a
position, and no record is emitted. -/
theorem spec_C10_w :
    (partsOf "4 CJ WR2".data).drop 1 = ["CJ".data, "WR2".data]
    ∧ isTeam "CJ".data = true
    ∧ extractPositionAndRank "WR2".data = some ⟨"WR".data, some 2⟩
    ∧ parseLineTA "4 CJ WR2".data = none :=
  ⟨by decide, by decide, by decide,
    spec_C10 _ "CJ".data "WR2".data ⟨"WR".data, some 2⟩ (by decide) (by decide) (by decide)⟩

theorem splitMatchup_eq_take (s : Str) :
    splitMatchup s = (match firstSepIdx s with | some i => s.take i | none => s) := by
  induction s with
  | nil => rfl
  | cons c cs ih =>
    by_cases h : (sepVs.isPrefixOf (c :: cs) || sepAt.isPrefixOf (c :: cs)) = true
    · simp [splitMatchup, firstSepIdx, h]
    · cases hf : firstSepIdx cs with
      | none =>
        have ih' : splitMatchup cs = cs := by rw [ih, hf]
        simp [splitMatchup, firstSepIdx, h, hf, ih']
      | some i =>
        have ih' : splitMatchup cs = cs.take i := by rw [ih, hf]
        simp [splitMatchup, firstSepIdx, h, hf, ih', List.take_succ_cons]

theorem firstSepIdx_some (s : Str) (i : Nat) (h : firstSepIdx s = some i) :
    sepOccursAt s i = true ∧ ∀ j, j < i → sepOccursAt s j = false := by
  induction s generalizing i with
  | nil => exact absurd h (by simp [firstSepIdx])
  | cons c cs ih =>
    by_cases hc : (sepVs.isPrefixOf (c :: cs) || sepAt.isPrefixOf (c :: cs)) = true
    · rw [firstSepIdx, if_pos hc] at h
      have hi : i = 0 := (Option.some.inj h).symm
      subst hi
      refine ⟨by simpa [sepOccursAt] using hc, fun j hj => absurd hj (Nat.not_lt_zero j)⟩
    · rw [firstSepIdx, if_neg hc] at h
      cases hf : firstSepIdx cs with
      | none => rw [hf] at h; exact absurd h (by simp)
      | some i' =>
        rw [hf] at h
        have hi : i = i' + 1 := (Option.some.inj h).symm
        subst hi
        obtain ⟨h1, h2⟩ := ih i' hf
        refine ⟨by simpa [sepOccursAt, List.drop_succ_cons] using h1, fun j hj => ?_⟩
        cases j with
        | zero =>
          simpa [sepOccursAt] using (Bool.not_eq_true _).mp hc
        | succ j' =>
          simpa [sepOccursAt, List.drop_succ_cons] using h2 j' (Nat.lt_of_succ_lt_succ hj)

theorem firstSepIdx_none (s : Str) (h : firstSepIdx s = none) :
    ∀ j, sepOccursAt s j = false := by
  induction s with
  | nil =>
    intro j
    rw [sepOccursAt, List.drop_nil]
    decide
  | cons c cs ih =>
    by_cases hc : (sepVs.isPrefixOf (c :: cs) || sepAt.isPrefixOf (c :: cs)) = true
    · rw [firstSepIdx, if_pos hc] at h
      exact absurd h (by simp)
    · rw [firstSepIdx, if_neg hc] at h
      have hn : firstSepIdx cs = none := by
        cases hf : firstSepIdx cs with
        | none => rfl
        | some i => rw [hf] at h; exact absurd h (by simp)
      intro j
      cases j with
      | zero => simpa [sepOccursAt] using (Bool.not_eq_true _).mp hc
      | succ j' => simpa [sepOccursAt, List.drop_succ_cons] using ih hn j'

/-- Claim C4: the line parser truncates each line at the first occurrence of
the literal " vs " or " @ " before tokenizing — `splitMatchup` keeps exactly
the prefix before the first index where either separator occurs — and
consequently "12 Justin Jefferson WR1 vs GB" yields name "Justin Jefferson",
position "WR", positional rank 1, with the "vs GB" suffix never parsed. -/
theorem spec_C4 :
    (∀ s : Str, splitMatchup s
        = (match firstSepIdx s with | some i => s.take i | none => s))
    ∧ (∀ (s : Str) (i : Nat), firstSepIdx s = some i →
        sepOccursAt s i = true ∧ ∀ j, j < i → sepOccursAt s j = false)
    ∧ (∀ s : Str, firstSepIdx s = none → ∀ j, sepOccursAt s j = false)
    ∧ parseLineTA "12 Justin Jefferson WR1 vs GB".data
        = some ⟨12, "Justin Jefferson".data, "WR".data, some 1, none⟩ :=
  ⟨splitMatchup_eq_take, firstSepIdx_some, firstSepIdx_none, rfl⟩

/-- Witness for C4 at the string "a vs b", whose first separator occurrence is
at index 1. -/
theorem spec_C4_w :
    sepOccursAt "a vs b".data 1 = true ∧ sepOccursAt "a vs b".data 0 = false :=
  ⟨(spec_C4.2.1 "a vs b".data 1 (by decide)).1,
   (spec_C4.2.1 "a vs b".data 1 (by decide)).2 0 (by decide)⟩

theorem digit_not_ws (c : Char) (h : isDigitC c = true) : isWsC c = false := by
  cases hv : isWsC c
  · rfl
  · exfalso
    simp only [isWsC, Bool.or_eq_true, decide_eq_true_eq] at hv
    rcases hv with ((((h1 | h1) | h1) | h1) | h1) | h1 <;> subst h1 <;>
      exact absurd h (by decide)

theorem takeWhile_of_all {α : Type} (p : α → Bool) (l : List α) (h : l.all p = true) :
    l.takeWhile p = l :=
  List.takeWhile_eq_self_iff.mpr (by simpa [List.all_eq_true] using h)

theorem parseIntJs_digits (ds : Str) (h : ds.all isDigitC = true) :
    parseIntJs ds = if ds = [] then none else some ((digitsVal ds : Nat) : Int) := by
  cases ds with
  | nil => rfl
  | cons c cs =>
    have hc : isDigitC c = true := by
      simp only [List.all_cons, Bool.and_eq_true] at h
      exact h.1
    have hw : isWsC c = false := digit_not_ws c hc
    have h1 : (c :: cs).dropWhile isWsC = c :: cs :=
      List.dropWhile_cons_of_neg (by simp [hw])
    have hm : ¬ c = '-' := by intro e; subst e; exact absurd hc (by decide)
    have hp : ¬ c = '+' := by intro e; subst e; exact absurd hc (by decide)
    have h2 : (c :: cs).takeWhile isDigitC = c :: cs := takeWhile_of_all _ _ h
    simp only [parseIntJs, h1, if_neg hm, if_neg hp, parseLeadingDigits, h2]
    simp

theorem extractGo_isSome (l : List Str) (up : Str) :
    (extractGo l up).isSome = true ↔
      ∃ code, code ∈ l ∧ code.isPrefixOf up = true
        ∧ (up.drop code.length).all isDigitC = true := by
  induction l with
  | nil => simp [extractGo]
  | cons code rest ih =>
    by_cases hp : code.isPrefixOf up = true
    · by_cases hd : (up.drop code.length).all isDigitC = true
      · simp only [extractGo, if_pos hp, if_pos hd, Option.isSome_some, true_iff]
        exact ⟨code, List.mem_cons_self code rest, hp, hd⟩
      · simp only [extractGo, if_pos hp, if_neg hd, ih]
        constructor
        · rintro ⟨c, hc, h1, h2⟩
          exact ⟨c, List.mem_cons_of_mem _ hc, h1, h2⟩
        · rintro ⟨c, hc, h1, h2⟩
          rcases List.mem_cons.mp hc with rfl | hc'
          · exact absurd h2 hd
          · exact ⟨c, hc', h1, h2⟩
    · simp only [extractGo, if_neg hp, ih]
      constructor
      · rintro ⟨c, hc, h1, h2⟩
        exact ⟨c, List.mem_cons_of_mem _ hc, h1, h2⟩
      · rintro ⟨c, hc, h1, h2⟩
        rcases List.mem_cons.mp hc with rfl | hc'
        · exact absurd h1 hp
        · exact ⟨c, hc', h1, h2⟩

theorem extractGo_eq_some (l : List Str) (up : Str) (pi : PosInfo)
    (h : extractGo l up = some pi) :
    ∃ code, code ∈ l ∧ code.isPrefixOf up = true
      ∧ (up.drop code.length).all isDigitC = true
      ∧ pi = ⟨normCode code, parseIntJs (up.drop code.length)⟩ := by
  induction l with
  | nil => exact absurd h (by simp [extractGo])
  | cons code rest ih =>
    by_cases hp : code.isPrefixOf up = true
    · by_cases hd : (up.drop code.length).all isDigitC = true
      · rw [extractGo, if_pos hp, if_pos hd] at h
        exact ⟨code, List.mem_cons_self code rest, hp, hd, (Option.some.inj h).symm⟩
      · rw [extractGo, if_pos hp, if_neg hd] at h
        obtain ⟨c, hc, h1, h2, h3⟩ := ih h
        exact ⟨c, List.mem_cons_of_mem _ hc, h1, h2, h3⟩
    · rw [extractGo, if_neg hp] at h
      obtain ⟨c, hc, h1, h2, h3⟩ := ih h
      exact ⟨c, List.mem_cons_of_mem _ hc, h1, h2, h3⟩

theorem prefix_decomp (code up : Str) (h : code.isPrefixOf up = true) :
    up = code ++ up.drop code.length := by
  obtain ⟨t, ht⟩ := List.isPrefixOf_iff_prefix.mp h
  rw [← ht, List.drop_left]

/-- Claim C2: `extractPositionAndRank` matches a token exactly when its
uppercasing is one of the base codes QB, RB, WR, TE, K, DST, DEF followed by
zero or more digits and nothing else; on a match the returned base code is the
canonical uppercase code with DEF normalized to DST, a non-empty digit
remainder becomes the positional rank, an empty remainder yields no positional
rank, and a purely numeric token never matches. -/
theorem spec_C2 (part : Str) :
    ((extractPositionAndRank part).isSome = true ↔
       ∃ code, code ∈ BASE_POSITIONS
         ∧ ∃ ds, ds.all isDigitC = true ∧ part.map toUpperC = code ++ ds)
    ∧ (∀ pi, extractPositionAndRank part = some pi →
        ∃ code, code ∈ BASE_POSITIONS
          ∧ ∃ ds, ds.all isDigitC = true ∧ part.map toUpperC = code ++ ds
            ∧ pi.base = (if code = "DEF".data then "DST".data else code)
            ∧ (ds = [] → pi.rank = none)
            ∧ (ds ≠ [] → pi.rank = some ((digitsVal ds : Nat) : Int)))
    ∧ (part.all isDigitC = true → extractPositionAndRank part = none) := by
  have hcode_ne : ∀ code ∈ BASE_POSITIONS, code ≠ [] := by decide
  refine ⟨?_, ?_, ?_⟩
  · by_cases h0 : part = []
    · subst h0
      simp only [extractPositionAndRank, if_pos rfl]
      constructor
      · intro hs
        exact absurd hs (by simp)
      · rintro ⟨code, hc, ds, _, hds⟩
        have : code = [] := by
          cases code with
          | nil => rfl
          | cons a tl => simp at hds
        exact absurd this (hcode_ne code hc)
    · rw [extractPositionAndRank, if_neg h0, extractGo_isSome]
      constructor
      · rintro ⟨code, hc, h1, h2⟩
        exact ⟨code, hc, part.map toUpperC |>.drop code.length, h2,
          prefix_decomp code _ h1⟩
      · rintro ⟨code, hc, ds, hds, hup⟩
        refine ⟨code, hc, ?_, ?_⟩
        · exact List.isPrefixOf_iff_prefix.mpr ⟨ds, hup.symm⟩
        · rw [hup, List.drop_left]
          exact hds
  · intro pi hpi
    have h0 : part ≠ [] := by
      intro e
      rw [e] at hpi
      simp [extractPositionAndRank] at hpi
    rw [extractPositionAndRank, if_neg h0] at hpi
    obtain ⟨code, hc, h1, h2, h3⟩ := extractGo_eq_some _ _ _ hpi
    refine ⟨code, hc, part.map toUpperC |>.drop code.length, h2,
      prefix_decomp code _ h1, ?_, ?_, ?_⟩
    · rw [h3]
      rfl
    · intro he
      rw [h3]
      show parseIntJs ((part.map toUpperC).drop code.length) = none
      rw [he]
      rfl
    · intro he
      rw [h3]
      show parseIntJs ((part.map toUpperC).drop code.length)
        = some ((digitsVal ((part.map toUpperC).drop code.length) : Nat) : Int)
      rw [parseIntJs_digits _ h2, if_neg he]
  · intro hd
    by_cases h0 : part = []
    · rw [extractPositionAndRank, if_pos h0]
    · rw [extractPositionAndRank, if_neg h0]
      cases hs : extractGo BASE_POSITIONS (part.map toUpperC) with
      | none => rfl
      | some pi =>
        exfalso
        obtain ⟨code, hc, h1, _, _⟩ := extractGo_eq_some _ _ _ hs
        have hup : part.map toUpperC = part := by
          have : ∀ c ∈ part, toUpperC c = c := by
            intro c hcp
            have hcd : isDigitC c = true := by
              rw [List.all_eq_true] at hd
              exact hd c hcp
            have : isLowerC c = false := by
              by_contra hl
              have hl' : isLowerC c = true := by
                cases hv : isLowerC c
                · exact absurd hv hl
                · rfl
              simp only [isLowerC, Bool.and_eq_true, decide_eq_true_eq] at hl'
              simp only [isDigitC, Bool.and_eq_true, decide_eq_true_eq] at hcd
              have : ('a' : Char) ≤ '9' := le_trans hl'.1 hcd.2
              exact absurd this (by decide)
            simp [toUpperC, this]
          calc part.map toUpperC = part.map id := List.map_congr_left this
          _ = part := List.map_id part
        rw [hup] at h1
        obtain ⟨t, ht⟩ := List.isPrefixOf_iff_prefix.mp h1
        have hfirst : ∀ (a : Char) (tl : Str), code = a :: tl → isDigitC a = true := by
          intro a tl he
          rw [List.all_eq_true] at hd
          refine hd a ?_
          rw [← ht, he]
          exact List.mem_append_left _ (List.mem_cons_self a tl)
        fin_cases hc <;> exact absurd (hfirst _ _ rfl) (by decide)

/-- Witness for C2: the token "def1" matches with base DST and positional rank
1, and the purely numeric token "123" does not match. -/
theorem spec_C2_w :
    (∃ code, code ∈ BASE_POSITIONS
       ∧ ∃ ds, ds.all isDigitC = true ∧ "def1".data.map toUpperC = code ++ ds
         ∧ (⟨"DST".data, some 1⟩ : PosInfo).base
             = (if code = "DEF".data then "DST".data else code)
         ∧ (ds = [] → (⟨"DST".data, some 1⟩ : PosInfo).rank = none)
         ∧ (ds ≠ [] → (⟨"DST".data, some 1⟩ : PosInfo).rank
             = some ((digitsVal ds : Nat) : Int)))
    ∧ extractPositionAndRank "123".data = none :=
  ⟨(spec_C2 "def1".data).2.1 ⟨"DST".data, some 1⟩ (by decide),
   (spec_C2 "123".data).2.2 (by decide)⟩

theorem wordsGo_ne_nil (s : Str) : ∀ acc, ∀ w ∈ wordsGo s acc, w ≠ [] := by
  induction s with
  | nil =>
    intro acc w hw
    simp only [wordsGo] at hw
    by_cases h : acc = []
    · rw [if_pos h] at hw
      simp at hw
    · rw [if_neg h] at hw
      simp only [List.mem_singleton] at hw
      subst hw
      simpa using h
  | cons c cs ih =>
    intro acc w hw
    simp only [wordsGo] at hw
    by_cases hc : isWsC c = true
    · rw [if_pos hc] at hw
      by_cases ha : acc = []
      · rw [if_pos ha] at hw
        exact ih [] w hw
      · rw [if_neg ha] at hw
        rcases List.mem_cons.mp hw with rfl | hw'
        · simpa using ha
        · exact ih [] w hw'
    · rw [if_neg hc] at hw
      exact ih (c :: acc) w hw

theorem jsSplitWsTrim_two_ne (s : Str) (p0 q : Str) (rest : List Str)
    (h : jsSplitWsTrim s = p0 :: q :: rest) : ∀ w ∈ p0 :: q :: rest, w ≠ [] := by
  rw [jsSplitWsTrim] at h
  by_cases hw : (words (trimJs s)).isEmpty = true
  · rw [if_pos hw] at h
    simp at h
  · rw [if_neg hw] at h
    intro w hwm
    rw [← h] at hwm
    exact wordsGo_ne_nil (trimJs s) [] w hwm

theorem joinSpace_cons_ne (w : Str) (ws : List Str) (h : w ≠ []) :
    joinSpace (w :: ws) ≠ [] := by
  cases ws with
  | nil => simpa [joinSpace] using h
  | cons x xs => simp [joinSpace]

theorem resolveTA_pos (pnp : List Str) (pi : PosInfo) (team : Option Str) (k : Nat)
    (h : resolveTA pnp = some (pi, team, k)) :
    ∃ tok, extractPositionAndRank tok = some pi := by
  rcases hrev : pnp.reverse with _ | ⟨p1, _ | ⟨p2, r⟩⟩
  · simp [resolveTA, hrev] at h
  · rcases he : extractPositionAndRank p1 with _ | pi1
    · simp [resolveTA, hrev, he] at h
    · simp [resolveTA, hrev, he] at h
      exact ⟨p1, by rw [he, h.1]⟩
  · rcases he1 : extractPositionAndRank p1 with _ | pi1
    · cases ht1 : isTeam p1
      · simp [resolveTA, hrev, he1, ht1] at h
      · rcases he2 : extractPositionAndRank p2 with _ | pi2
        · simp [resolveTA, hrev, he1, ht1, he2] at h
        · simp [resolveTA, hrev, he1, ht1, he2] at h
          exact ⟨p2, by rw [he2, h.1]⟩
    · cases ht2 : isTeam p2 <;>
        simp [resolveTA, hrev, he1, ht2] at h <;>
        exact ⟨p1, by rw [he1, h.1]⟩

theorem extract_ne_nil (tok : Str) (pi : PosInfo)
    (h : extractPositionAndRank tok = some pi) : tok ≠ [] := by
  intro e
  rw [e] at h
  simp [extractPositionAndRank] at h

theorem extract_base_mem (tok : Str) (pi : PosInfo)
    (h : extractPositionAndRank tok = some pi) :
    pi.base ∈ ["QB".data, "RB".data, "WR".data, "TE".data, "K".data, "DST".data] := by
  rw [extractPositionAndRank, if_neg (extract_ne_nil tok pi h)] at h
  obtain ⟨code, hc, _, _, h3⟩ := extractGo_eq_some _ _ _ h
  rw [h3]
  show normCode code ∈ _
  fin_cases hc <;> decide

theorem extract_rank_nonneg (tok : Str) (pi : PosInfo)
    (h : extractPositionAndRank tok = some pi) :
    ∀ r, pi.rank = some r → 0 ≤ r := by
  intro r hr
  rw [extractPositionAndRank, if_neg (extract_ne_nil tok pi h)] at h
  obtain ⟨code, _, _, h2, h3⟩ := extractGo_eq_some _ _ _ h
  rw [h3] at hr
  have hr' : parseIntJs ((tok.map toUpperC).drop code.length) = some r := hr
  rw [parseIntJs_digits _ h2] at hr'
  by_cases he : (tok.map toUpperC).drop code.length = []
  · rw [if_pos he] at hr'
    exact absurd hr' (by simp)
  · rw [if_neg he] at hr'
    rw [← Option.some.inj hr']
    exact Int.natCast_nonneg _

theorem parseLineTA_inv (line : Str) (p : Player) (h : parseLineTA line = some p) :
    p.name ≠ []
    ∧ p.position ∈ ["QB".data, "RB".data, "WR".data, "TE".data, "K".data, "DST".data]
    ∧ ∀ r, p.positionalRank = some r → 0 ≤ r := by
  rcases hps : partsOf line with _ | ⟨p0, _ | ⟨q, rest⟩⟩
  · simp [parseLineTA, hps] at h
  · simp [parseLineTA, hps] at h
  · rcases hr : parseIntJs (stripRankPunct p0) with _ | rank
    · simp [parseLineTA, hps, hr] at h
    · rcases hres : resolveTA (q :: rest) with _ | ⟨pi, team, nameEnd⟩
      · simp [parseLineTA, hps, hr, hres] at h
      · cases nameEnd with
        | zero => simp [parseLineTA, hps, hr, hres] at h
        | succ k =>
          simp only [parseLineTA, hps, hr, hres, List.length_cons, Nat.succ_ne_zero,
            if_false, Nat.zero_lt_succ, if_true, Option.some.injEq,
            Nat.succ_eq_add_one, ite_false, ite_true] at h
          obtain ⟨tok, htok⟩ := resolveTA_pos _ _ _ _ hres
          have hq : q ≠ [] :=
            jsSplitWsTrim_two_ne _ _ _ _ hps q (by simp)
          subst h
          refine ⟨?_, extract_base_mem tok pi htok, extract_rank_nonneg tok pi htok⟩
          show joinSpace ((q :: rest).take (k + 1)) ≠ []
          rw [List.take_succ_cons]
          exact joinSpace_cons_ne q _ hq

/-- Counterexample to C6 as stated: on the input "0 Some Guy QB0" / "-2 Bad
Guy RB" the parser emits a record with rank 0, a record with rank -2, and a
positional rank 0, so neither rank nor positionalRank is guaranteed positive. -/
theorem spec_C6_cex :
    parseRankingsFromTextTA "0 Some Guy QB0\n-2 Bad Guy RB".data
      = [⟨0, "Some Guy".data, "QB".data, some 0, none⟩,
         ⟨-2, "Bad Guy".data, "RB".data, none, none⟩]
    ∧ ¬ (∀ p : Player, p ∈ parseRankingsFromTextTA "0 Some Guy QB0\n-2 Bad Guy RB".data →
          0 < p.rank ∧ ∀ r, p.positionalRank = some r → 0 < r) := by
  refine ⟨by decide, fun h => ?_⟩
  have h1 := h ⟨0, "Some Guy".data, "QB".data, some 0, none⟩ (by decide)
  exact absurd h1.1 (by decide)

/-- Claim C6 (amended): every record emitted by the team-aware parser has a
non-empty name, a position in the closed set {QB, RB, WR, TE, K, DST}, and a
nonnegative positional rank when one is present; the rank is an integer but —
as the counterexample shows — may be zero or negative. -/
theorem spec_C6 (text : Str) (p : Player) (hp : p ∈ parseRankingsFromTextTA text) :
    p.name ≠ []
    ∧ p.position ∈ ["QB".data, "RB".data, "WR".data, "TE".data, "K".data, "DST".data]
    ∧ ∀ r, p.positionalRank = some r → 0 ≤ r := by
  obtain ⟨line, _, hline⟩ := List.mem_filterMap.mp hp
  exact parseLineTA_inv line p hline

/-- Witness for C6 at the record emitted for "1 Tom Brady QB2". -/
theorem spec_C6_w :
    (⟨1, "Tom Brady".data, "QB".data, some 2, none⟩ : Player)
        ∈ parseRankingsFromTextTA "1 Tom Brady QB2".data
    ∧ ("Tom Brady".data ≠ []
        ∧ "QB".data ∈ ["QB".data, "RB".data, "WR".data, "TE".data, "K".data, "DST".data]
        ∧ ∀ r, (some 2 : Option Int) = some r → 0 ≤ r) :=
  ⟨by decide,
   spec_C6 "1 Tom Brady QB2".data ⟨1, "Tom Brady".data, "QB".data, some 2, none⟩ (by decide)⟩

/-- The rejection message of the promise-based `parseRankingsFromText`. -/
def errMsg : Str := "Failed to parse rankings from text. Please check the format.".data

/-- Checked array indexing: a JavaScript index access modelled so that an
out-of-bounds access surfaces as the batch-level failure. -/
def idxE (l : List Str) (i : Nat) : Except Str Str :=
  match l[i]? with
  | some t => Except.ok t
  | none => Except.error errMsg

/-- The team-aware line step with every index access (`parts[0]`,
`potentialNameParts[nameEndIndex - 1]`, `potentialNameParts[nameEndIndex - 2]`,
and the `p2!` dereference) checked: `Except.error` is the try/catch failure
path of the source, `Except.ok none` a skipped line, `Except.ok (some p)` an
emitted record. -/
def parseLineTAChecked (line : Str) : Except Str (Option Player) :=
  let parts := partsOf line
  if parts.length < 2 then Except.ok none
  else
    match idxE parts 0 with
    | Except.error e => Except.error e
    | Except.ok part0 =>
      match parseIntJs (stripRankPunct part0) with
      | none => Except.ok none
      | some rank =>
        let pnp := parts.drop 1
        if pnp.length = 0 then Except.ok none
        else
          match idxE pnp (pnp.length - 1) with
          | Except.error e => Except.error e
          | Except.ok p1 =>
            match (if 1 < pnp.length then
                match idxE pnp (pnp.length - 2) with
                | Except.error e => Except.error e
                | Except.ok t => Except.ok (some t)
              else Except.ok none) with
            | Except.error e => Except.error e
            | Except.ok po =>
              match extractPositionAndRank p1 with
              | some pi =>
                if (match po with | some t => isTeam t | none => false) then
                  match po with
                  | some p2 =>
                    if 0 < pnp.length - 2 then
                      Except.ok (some ⟨rank, joinSpace (pnp.take (pnp.length - 2)),
                        pi.base, pi.rank, some (p2.map toUpperC)⟩)
                    else Except.ok none
                  | none => Except.error errMsg
                else
                  if 0 < pnp.length - 1 then
                    Except.ok (some ⟨rank, joinSpace (pnp.take (pnp.length - 1)),
                      pi.base, pi.rank, none⟩)
                  else Except.ok none
              | none =>
                if isTeam p1 then
                  match (match po with | some t => extractPositionAndRank t | none => none) with
                  | some pi =>
                    if 0 < pnp.length - 2 then
                      Except.ok (some ⟨rank, joinSpace (pnp.take (pnp.length - 2)),
                        pi.base, pi.rank, some (p1.map toUpperC)⟩)
                    else Except.ok none
                  | none => Except.ok none
                else Except.ok none

/-- The checked whole-batch driver: any line-level internal failure aborts the
batch with the rejection message, otherwise the records accumulate in order. -/
def goLines (ls : List Str) : Except Str (List Player) :=
  match ls with
  | [] => Except.ok []
  | l :: rest =>
    match parseLineTAChecked l with
    | Except.error e => Except.error e
    | Except.ok r =>
      match goLines rest with
      | Except.error e => Except.error e
      | Except.ok ps => Except.ok (r.toList ++ ps)

/-- The team-aware `parseRankingsFromText` with its failure path: the promise
resolves with the record list or rejects with `errMsg`. -/
def parseRankingsE (text : Str) : Except Str (List Player) :=
  goLines (linesOf text)

theorem getElem?_last_of_rev {α : Type} {l r : List α} {a : α} (h : l.reverse = a :: r) :
    l[l.length - 1]? = some a := by
  have hl : l = r.reverse ++ [a] := by
    have h2 := congrArg List.reverse h
    simpa using h2
  rw [hl]
  simp

theorem getElem?_secondlast_of_rev {α : Type} {l r : List α} {a b : α}
    (h : l.reverse = a :: b :: r) : l[l.length - 2]? = some b := by
  have hl : l = (r.reverse ++ [b]) ++ [a] := by
    have h2 := congrArg List.reverse h
    simpa [List.append_assoc] using h2
  rw [hl]
  have hlt : r.reverse.length < (r.reverse ++ [b]).length := by simp
  have hfin : ((r.reverse ++ [b]) ++ [a])[r.reverse.length]? = some b := by
    rw [List.getElem?_append_left hlt]
    exact List.getElem?_concat_length _ _
  simpa [List.length_append, List.length_reverse] using hfin

theorem parseLineTAChecked_eq (line : Str) :
    parseLineTAChecked line = Except.ok (parseLineTA line) := by
  rcases hps : partsOf line with _ | ⟨p0, _ | ⟨q, rest⟩⟩
  · simp [parseLineTAChecked, parseLineTA, hps]
  · simp [parseLineTAChecked, parseLineTA, hps]
  · rcases hr : parseIntJs (stripRankPunct p0) with _ | rank
    · simp [parseLineTAChecked, parseLineTA, hps, hr, idxE]
    · rcases hrev : (q :: rest).reverse with _ | ⟨p1, _ | ⟨p2, r⟩⟩
      · exact absurd hrev (by simp)
      · have hqr : q :: rest = [p1] := by
          have h2 := congrArg List.reverse hrev
          simpa using h2
        obtain ⟨hq, hrest⟩ : q = p1 ∧ rest = [] := by
          injection hqr with h1 h2
          exact ⟨h1, h2⟩
        subst hq
        subst hrest
        rcases he : extractPositionAndRank q with _ | pi
        · cases ht : isTeam q <;>
            simp [parseLineTAChecked, parseLineTA, hps, hr, resolveTA, idxE, he, ht]
        · simp [parseLineTAChecked, parseLineTA, hps, hr, resolveTA, idxE, he]
      · have hlen' : rest.length = r.length + 1 := by
          have h2 := congrArg List.length hrev
          simp only [List.length_reverse, List.length_cons] at h2
          omega
        have hpos0 : 0 < rest.length := by omega
        have hget1' : (q :: rest)[rest.length]? = some p1 := by
          simpa using getElem?_last_of_rev hrev
        have hget2' : (q :: rest)[rest.length - 1]? = some p2 := by
          simpa using getElem?_secondlast_of_rev hrev
        have hb1 : rest.length < (q :: rest).length := by simp
        have hb2 : rest.length - 1 < (q :: rest).length := by simp; omega
        have hg1 : (q :: rest)[rest.length] = p1 :=
          Option.some.inj ((List.getElem?_eq_getElem hb1).symm.trans hget1')
        have hg2 : (q :: rest)[rest.length - 1] = p2 :=
          Option.some.inj ((List.getElem?_eq_getElem hb2).symm.trans hget2')
        have hF : ¬ (rest.length + 1 + 1 < 2) := by omega
        rcases he1 : extractPositionAndRank p1 with _ | pi1
        · cases ht1 : isTeam p1
          · simp [parseLineTAChecked, parseLineTA, hps, hr, resolveTA, hrev, idxE,
              hget1', hget2', hg1, hg2, hpos0, hF, apply_ite, he1, ht1]
          · rcases he2 : extractPositionAndRank p2 with _ | pi2 <;>
              simp [parseLineTAChecked, parseLineTA, hps, hr, resolveTA, hrev, idxE,
                hget1', hget2', hg1, hg2, hpos0, hF, apply_ite, he1, ht1, he2]
        · cases ht2 : isTeam p2 <;>
            simp [parseLineTAChecked, parseLineTA, hps, hr, resolveTA, hrev, idxE,
              hget1', hget2', hg1, hg2, hpos0, hF, apply_ite, he1, ht2]

theorem dropWhile_of_all {α : Type} (p : α → Bool) (l : List α) (h : l.all p = true) :
    l.dropWhile p = [] := by
  induction l with
  | nil => rfl
  | cons c cs ih =>
    simp only [List.all_cons, Bool.and_eq_true] at h
    rw [List.dropWhile_cons_of_pos h.1]
    exact ih h.2

theorem trimJs_of_ws (s : Str) (h : s.all isWsC = true) : trimJs s = [] := by
  rw [trimJs, dropWhile_of_all _ _ h]
  rfl

theorem splitOnNl_all_ws (s : Str) (h : s.all isWsC = true) :
    ∀ l ∈ splitOnNl s, l.all isWsC = true := by
  induction s with
  | nil =>
    intro l hl
    simp only [splitOnNl, List.mem_singleton] at hl
    subst hl
    rfl
  | cons c cs ih =>
    intro l hl
    have hc : isWsC c = true ∧ cs.all isWsC = true := by
      simpa [List.all_cons] using h
    simp only [splitOnNl] at hl
    by_cases hn : c = '\n'
    · rw [if_pos hn] at hl
      rcases List.mem_cons.mp hl with rfl | hl'
      · rfl
      · exact ih hc.2 l hl'
    · rw [if_neg hn] at hl
      cases hrec : splitOnNl cs with
      | nil =>
        rw [hrec] at hl
        simp only [List.mem_singleton] at hl
        subst hl
        simp [List.all_cons, hc.1]
      | cons w ws =>
        rw [hrec] at hl
        rcases List.mem_cons.mp hl with rfl | hl'
        · have hw : w.all isWsC = true := ih hc.2 w (by rw [hrec]; exact List.mem_cons_self _ _)
          simp [List.all_cons, hc.1, hw]
        · exact ih hc.2 l (by rw [hrec]; exact List.mem_cons_of_mem _ hl')

theorem linesOf_of_ws (text : Str) (h : text.all isWsC = true) : linesOf text = [] := by
  rw [linesOf, List.filter_eq_nil_iff]
  intro l hl
  have ht := trimJs_of_ws l (splitOnNl_all_ws text h l hl)
  simp [ht]

/-- Claim C8: the team-aware `parseRankingsFromText` always resolves: the
checked parse (in which each index access may fail) equals `Except.ok` of the
total parse for every input, so the batch-level failure branch is unreachable,
and whitespace-only input yields the empty record list with no failure. -/
theorem spec_C8 (text : Str) :
    parseRankingsE text = Except.ok (parseRankingsFromTextTA text)
    ∧ (text.all isWsC = true → parseRankingsFromTextTA text = []) := by
  constructor
  · show goLines (linesOf text) = _
    rw [parseRankingsFromTextTA]
    induction linesOf text with
    | nil => rfl
    | cons l rest ih =>
      rw [goLines, parseLineTAChecked_eq l, ih]
      cases hp : parseLineTA l <;> simp [List.filterMap_cons, hp]
  · intro h
    rw [parseRankingsFromTextTA, linesOf_of_ws text h]
    rfl

/-- Witness for C8 at a whitespace-only input. -/
theorem spec_C8_w :
    ("  \n \t ".data.all isWsC = true)
    ∧ parseRankingsE "  \n \t ".data = Except.ok (parseRankingsFromTextTA "  \n \t ".data)
    ∧ parseRankingsFromTextTA "  \n \t ".data = [] :=
  ⟨by decide, (spec_C8 "  \n \t ".data).1, (spec_C8 "  \n \t ".data).2 (by decide)⟩

end FantasyParse
